import Mathlib

/-!
Verification of the kreyol-lingua client-side text pipeline.

The development shallowly embeds the three core components of the app:
the phonetic rewrite engine (the `speak` functions' chained
`.replace(/pat/g, repl)` calls over a lowercased input), the token tag
lookup (`showWordInfo`'s `tags.find(t => t.startsWith(KIND + ":"))?.split(":")[1]`),
and the favorites store (`loadFavorites` / `saveToFavorites` /
`removeFavorite` over AsyncStorage).

Strings are modelled as `List Char`.  JavaScript's `String.replace` with a
global literal (or word-bounded) pattern scans the original string left to
right, replacing non-overlapping occurrences; replacement text is never
rescanned by the same rule.  `toLowerCase` is modelled on the basic-latin
range by `Char.toLower`.  External collaborators (the network, JSON.parse,
AsyncStorage, Speech.speak) are modelled by explicit parameters and
outcome values.
-/

namespace KreyolLingua

/-- JS regex word character class `\w` = `[A-Za-z0-9_]`. -/
def isWordChar (c : Char) : Bool :=
  c.isAlpha || c.isDigit || c = '_'

/-- One phonetic substitution rule: a literal pattern, its replacement, and
whether the pattern is word-boundary delimited (JS `/\bpat\b/g` vs `/pat/g`). -/
structure Rule where
  pattern : List Char
  replacement : List Char
  wordBound : Bool
deriving DecidableEq

/-- JS `\b` before a match position: start of string or a non-word char before. -/
def boundaryBefore : Option Char → Bool
  | none => true
  | some c => !isWordChar c

/-- JS `\b` after a match: end of string or a non-word char next. -/
def boundaryAfter : List Char → Bool
  | [] => true
  | c :: _ => !isWordChar c

/-- Does rule `r` match at the current position?  `prev` is the character
just before this position in the original string (`none` at the start). -/
def matchesAt (r : Rule) (prev : Option Char) (s : List Char) : Bool :=
  !r.pattern.isEmpty && r.pattern.isPrefixOf s &&
    (!r.wordBound || (boundaryBefore prev && boundaryAfter (s.drop r.pattern.length)))

/-- One global replace pass (JS `s.replace(/pat/g, repl)` resp.
`s.replace(/\bpat\b/g, repl)`), structurally recursive on a fuel that is
initialised to the string length.  On a match the scan resumes after the
matched occurrence of the original string; the last character of the
pattern becomes the previous character for the boundary check. -/
def applyRuleFuel (r : Rule) : Nat → Option Char → List Char → List Char
  | 0, _, s => s
  | _ + 1, _, [] => []
  | fuel + 1, prev, c :: cs =>
    if matchesAt r prev (c :: cs) then
      r.replacement ++ applyRuleFuel r fuel r.pattern.getLast? ((c :: cs).drop r.pattern.length)
    else
      c :: applyRuleFuel r fuel (some c) cs

/-- Apply one rule everywhere in `s` (one `.replace` call). -/
def applyRule (r : Rule) (s : List Char) : List Char :=
  applyRuleFuel r s.length none s

/-- Lowercasing of the input (`textToSpeak.toLowerCase()`), basic-latin model. -/
def toLowerStr (s : List Char) : List Char :=
  s.map Char.toLower

/-- Sequential application of the rule chain over the evolving string: each
`.replace` call in the source acts on the result of the previous one. -/
def runRules : List Rule → List Char → List Char
  | [], s => s
  | r :: rs, s => runRules rs (applyRule r s)

/-- The rewrite engine: `speak` lowercases its input once, then applies each
rule of the rule table in order over the current string state. -/
def rewrite (rules : List Rule) (s : List Char) : List Char :=
  runRules rules (toLowerStr s)

/-- Rule table of `speak` in src/KreyolApp/App.js lines 31-40. -/
def appRules : List Rule :=
  [⟨"ap".data, "app".data, true⟩,
   ⟨"mache".data, "maché".data, false⟩,
   ⟨"manje".data, "man-zhay".data, false⟩,
   ⟨"mwen".data, "mou-en".data, false⟩]

/-- Rule table of the second `speak` in src/KreyolApp/App.js lines 101-116:
the chain that also rewrites "ale", "pale" and "li". -/
def chainRules : List Rule :=
  [⟨"ap".data, "app".data, true⟩,
   ⟨"mache".data, "maché".data, false⟩,
   ⟨"manje".data, "man-zhay".data, false⟩,
   ⟨"mwen".data, "mou-en".data, false⟩,
   ⟨"ale".data, "all-ay".data, false⟩,
   ⟨"pale".data, "pah-lay".data, false⟩,
   ⟨"li".data, "lee".data, false⟩]

/-- The word-bounded rule `("ap" → "app")` of the source rule chains. -/
def apRule : Rule := ⟨"ap".data, "app".data, true⟩

/-- Rule table of `speak` in src/unnamed/part_002 lines 134-142. -/
def part002Rules : List Rule :=
  [⟨"mwen".data, "mou-en".data, false⟩,
   ⟨"manje".data, "man-jay".data, false⟩,
   ⟨"kouri".data, "koo-ree".data, false⟩]

/-- The rewrite performed by `speak` in src/unnamed/part_002 lines 134-142:
that variant has no `.toLowerCase()` call, so its rule chain is applied to
the input text as-is. -/
def rewriteNoLower (rules : List Rule) (s : List Char) : List Char :=
  runRules rules s

/-- An apostrophe character (U+0027), as appears in the input "m'ap manje". -/
def apos : Char := Char.ofNat 39

/-- A token of the analysis response: original spelling, normalized spelling,
and an ordered list of `"KIND:VALUE"` tags. -/
structure Token where
  original : List Char
  normalized : List Char
  tags : List (List Char)
deriving DecidableEq

/-- JS `s.split(sep)` for a single-character separator: the list of maximal
separator-free segments; `"".split(sep)` is `[""]`, and a trailing separator
yields a trailing empty segment. -/
def splitOnChar (sep : Char) : List Char → List (List Char)
  | [] => [[]]
  | c :: cs =>
    if c = sep then [] :: splitOnChar sep cs
    else
      match splitOnChar sep cs with
      | [] => [[c]]
      | h :: t => (c :: h) :: t

/-- Tag lookup as in `showWordInfo` (src/KreyolApp/App.js lines 42-45):
`token.tags.find(t => t.startsWith(kind + ":"))?.split(":")[1]`, where an
absent match short-circuits to `none` and `[1]` is the element at index 1 of
the full split on every colon. -/
def lookupTag (t : Token) (kind : List Char) : Option (List Char) :=
  match t.tags.find? (fun tag => (kind ++ [':']).isPrefixOf tag) with
  | none => none
  | some tag => (splitOnChar ':' tag).get? 1

/-- State of the favorites store: the in-memory list and the content persisted
under the `"favorites"` key (as the parsed list, ignoring serialization). -/
structure FavState where
  favorites : List String
  stored : List String
deriving DecidableEq

/-- saveToFavorites (src/unnamed/part_002 lines 106-111): a no-op when the
candidate is empty (falsy) or already present; otherwise prepend and persist
the whole new list. -/
def saveToFavorites (result : String) (st : FavState) : FavState :=
  if result = "" ∨ result ∈ st.favorites then st
  else ⟨result :: st.favorites, result :: st.favorites⟩

/-- removeFavorite (src/unnamed/part_002 lines 113-117): drop every exact
match and persist the filtered list. -/
def removeFavorite (item : String) (st : FavState) : FavState :=
  ⟨st.favorites.filter (fun f => f ≠ item), st.favorites.filter (fun f => f ≠ item)⟩

/-- loadFavorites (src/unnamed/part_001 lines 16-21, the variant wrapped in
try/catch): `JSON.parse` is modelled by the abstract parser `parse`, with
`none` standing for a thrown deserialization error.  An absent or empty
(falsy) stored value leaves the initial empty list; a caught parse error
does too. -/
def loadFavorites (parse : String → Option (List String)) (stored : Option String) :
    List String :=
  match stored with
  | none => []
  | some s =>
    if s = "" then []
    else
      match parse s with
      | some l => l
      | none => []

/-- loadFavorites (src/unnamed/part_002 lines 101-104, the variant with no
try/catch): a deserialization failure propagates to the caller as an
exception, modelled by `Except.error`. -/
def loadFavoritesUnguarded (parse : String → Option (List String)) (stored : Option String) :
    Except Unit (List String) :=
  match stored with
  | none => Except.ok []
  | some s =>
    if s = "" then Except.ok []
    else
      match parse s with
      | some l => Except.ok l
      | none => Except.error ()

/-- The analysis response body: `normalized_text` and the token list. -/
structure AnalyzeResponse where
  normalizedText : String
  tokens : List Token

/-- The component state touched by `analyzeText`. -/
structure AppState where
  inputText : String
  result : String
  tokens : List Token
  loading : Bool

/-- Outcome of one `analyzeText` call: the new state, whether the network
request was performed, and whether the error alert was shown. -/
structure AnalyzeOutcome where
  state : AppState
  requested : Bool
  alerted : Bool

/-- analyzeText (src/KreyolApp/App.js lines 18-29): guarded on empty input;
the network round-trip is modelled by its outcome `resp`.  On success the
result and token state are replaced; on failure an alert is shown and only
the loading flag is reset (the `finally` clause). -/
def analyzeText (st : AppState) (resp : Except Unit AnalyzeResponse) : AnalyzeOutcome :=
  if st.inputText = "" then ⟨st, false, false⟩
  else
    match resp with
    | Except.ok r => ⟨⟨st.inputText, r.normalizedText, r.tokens, false⟩, true, false⟩
    | Except.error _ => ⟨⟨st.inputText, st.result, st.tokens, false⟩, true, true⟩

/-- speak (src/unnamed/part_002 lines 27-35): guarded by `if (result)`; the
value carried is the text handed to `Speech.speak`, `none` when no synthesis
call is made. -/
def speakGuarded (result : String) : Option String :=
  if result = "" then none else some result

/-- speak (src/KreyolApp/App.js lines 31-40): no guard; `Speech.speak` is
always invoked, on the rewritten text. -/
def speakApp (textToSpeak : List Char) : Option (List Char) :=
  some (rewrite appRules textToSpeak)


theorem runRules_eq_foldl (rules : List Rule) (s : List Char) :
    runRules rules s = rules.foldl (fun acc r => applyRule r acc) s := by
  induction rules generalizing s with
  | nil => rfl
  | cons r rs ih => simp [runRules, List.foldl_cons, ih]

theorem char_toLower_idem (c : Char) : c.toLower.toLower = c.toLower := by
  by_cases h : c.toNat >= 65 ∧ c.toNat <= 90
  · have hv : (c.toNat + 32).isValidChar := Or.inl (by omega)
    have h2 : (Char.ofNat (c.toNat + 32)).toNat = c.toNat + 32 := by
      rw [Char.ofNat, dif_pos hv]; rfl
    have h1 : c.toLower = Char.ofNat (c.toNat + 32) := by
      unfold Char.toLower; rw [if_pos h]
    rw [h1]
    unfold Char.toLower
    rw [if_neg]
    rw [h2]; omega
  · have h1 : c.toLower = c := by unfold Char.toLower; rw [if_neg h]
    rw [h1, h1]

theorem toLowerStr_idem (s : List Char) : toLowerStr (toLowerStr s) = toLowerStr s := by
  unfold toLowerStr
  rw [List.map_map]
  apply List.map_congr_left
  intro c _
  exact char_toLower_idem c


theorem splitOnChar_cons_sep (sep : Char) (cs : List Char) :
    splitOnChar sep (sep :: cs) = [] :: splitOnChar sep cs := by
  conv_lhs => unfold splitOnChar
  rw [if_pos rfl]

theorem splitOnChar_cons_of_ne (sep c : Char) (cs hd : List Char) (tl : List (List Char))
    (h : c ≠ sep) (hs : splitOnChar sep cs = hd :: tl) :
    splitOnChar sep (c :: cs) = (c :: hd) :: tl := by
  conv_lhs => unfold splitOnChar
  rw [if_neg h, hs]

theorem splitOnChar_ne_nil (sep : Char) (l : List Char) : splitOnChar sep l ≠ [] := by
  cases l with
  | nil => simp [splitOnChar]
  | cons c cs =>
    by_cases h : c = sep
    · subst h
      rw [splitOnChar_cons_sep]
      simp
    · cases hs : splitOnChar sep cs with
      | nil => exact absurd hs (splitOnChar_ne_nil sep cs)
      | cons hd tl =>
        rw [splitOnChar_cons_of_ne sep c cs hd tl h hs]
        simp

theorem splitOnChar_head (sep : Char) (l : List Char) :
    (splitOnChar sep l).head? = some (l.takeWhile (fun c => c ≠ sep)) := by
  induction l with
  | nil => rfl
  | cons c cs ih =>
    by_cases h : c = sep
    · subst h
      rw [splitOnChar_cons_sep]
      simp [List.takeWhile_cons]
    · cases hs : splitOnChar sep cs with
      | nil => exact absurd hs (splitOnChar_ne_nil sep cs)
      | cons hd tl =>
        rw [splitOnChar_cons_of_ne sep c cs hd tl h hs]
        rw [hs] at ih
        simp only [List.head?_cons, Option.some.injEq] at ih
        simp [List.takeWhile_cons, h, ih]

theorem splitOnChar_length_ge_two (sep : Char) (l : List Char) (h : sep ∈ l) :
    2 ≤ (splitOnChar sep l).length := by
  induction l with
  | nil => simp at h
  | cons c cs ih =>
    by_cases hc : c = sep
    · subst hc
      rw [splitOnChar_cons_sep]
      have h1 : splitOnChar c cs ≠ [] := splitOnChar_ne_nil c cs
      have h2 : 1 ≤ (splitOnChar c cs).length := by
        cases hs : splitOnChar c cs with
        | nil => exact absurd hs h1
        | cons a b => simp
      simp only [List.length_cons]
      omega
    · have hmem : sep ∈ cs := by
        cases h with
        | head => exact absurd rfl hc
        | tail _ h => exact h
      cases hs : splitOnChar sep cs with
      | nil => exact absurd hs (splitOnChar_ne_nil sep cs)
      | cons hd tl =>
        rw [splitOnChar_cons_of_ne sep c cs hd tl hc hs]
        have := ih hmem
        rw [hs] at this
        simp only [List.length_cons] at this ⊢
        omega

theorem splitOnChar_append_sep (sep : Char) (pre rest : List Char)
    (h : ∀ c ∈ pre, c ≠ sep) :
    splitOnChar sep (pre ++ sep :: rest) = pre :: splitOnChar sep rest := by
  induction pre with
  | nil =>
    rw [List.nil_append, splitOnChar_cons_sep]
  | cons c cs ih =>
    have hc : c ≠ sep := h c (List.mem_cons_self c cs)
    have hcs : ∀ x ∈ cs, x ≠ sep := fun x hx => h x (List.mem_cons_of_mem c hx)
    rw [List.cons_append]
    exact splitOnChar_cons_of_ne sep c (cs ++ sep :: rest) cs (splitOnChar sep rest) hc (ih hcs)


theorem lookupTag_isSome_of_find (t : Token) (kind tag : List Char)
    (hf : t.tags.find? (fun tg => (kind ++ [':']).isPrefixOf tg) = some tag) :
    ∃ v, lookupTag t kind = some v := by
  have hp : ((kind ++ [':']).isPrefixOf tag) = true := List.find?_some hf
  have hpre : (kind ++ [':']) <+: tag := List.isPrefixOf_iff_prefix.mp hp
  have hmem : (':' : Char) ∈ tag := hpre.subset (by simp)
  have hlen := splitOnChar_length_ge_two ':' tag hmem
  unfold lookupTag
  rw [hf]
  cases hg : (splitOnChar ':' tag).get? 1 with
  | none =>
    rw [List.get?_eq_none] at hg
    omega
  | some v =>
    refine ⟨v, ?_⟩
    show (splitOnChar ':' tag).get? 1 = some v
    exact hg

theorem lookupTag_eq_none_iff (t : Token) (kind : List Char) :
    lookupTag t kind = none ↔ ∀ tag ∈ t.tags, ¬ (kind ++ [':']).isPrefixOf tag := by
  constructor
  · intro h tag hmem hpre
    cases hf : t.tags.find? (fun tg => (kind ++ [':']).isPrefixOf tg) with
    | none =>
      rw [List.find?_eq_none] at hf
      exact hf tag hmem hpre
    | some tg =>
      obtain ⟨v, hv⟩ := lookupTag_isSome_of_find t kind tg hf
      rw [hv] at h
      cases h
  · intro h
    unfold lookupTag
    rw [List.find?_eq_none.mpr h]

theorem lookupTag_value (t : Token) (kind tag : List Char)
    (hk : (':' : Char) ∉ kind)
    (hf : t.tags.find? (fun tg => (kind ++ [':']).isPrefixOf tg) = some tag) :
    ∃ rest, tag = kind ++ ':' :: rest ∧
      lookupTag t kind = some (rest.takeWhile (fun c => c ≠ ':')) := by
  have hp : ((kind ++ [':']).isPrefixOf tag) = true := List.find?_some hf
  have hpre : (kind ++ [':']) <+: tag := List.isPrefixOf_iff_prefix.mp hp
  obtain ⟨rest, hrest⟩ := hpre
  have htag : tag = kind ++ ':' :: rest := by
    rw [← hrest, List.append_assoc, List.singleton_append]
  refine ⟨rest, htag, ?_⟩
  unfold lookupTag
  rw [hf, htag]
  show (splitOnChar ':' (kind ++ ':' :: rest)).get? 1 = _
  rw [splitOnChar_append_sep ':' kind rest (fun c hc hceq => hk (hceq ▸ hc)),
      List.get?_cons_succ, List.get?_zero]
  exact splitOnChar_head ':' rest


theorem applyRuleFuel_of_word_prev (r : Rule) (hw : r.wordBound = true) :
    ∀ (fuel : Nat) (p : Char) (s : List Char),
      (∀ c ∈ s, isWordChar c = true) → isWordChar p = true →
      applyRuleFuel r fuel (some p) s = s := by
  intro fuel
  induction fuel with
  | zero => intro p s _ _; rfl
  | succ n ih =>
    intro p s hs hp
    cases s with
    | nil => rfl
    | cons c cs =>
      have hm : matchesAt r (some p) (c :: cs) = false := by
        simp [matchesAt, hw, boundaryBefore, hp]
      show (if matchesAt r (some p) (c :: cs) = true then
              r.replacement ++ applyRuleFuel r n r.pattern.getLast? ((c :: cs).drop r.pattern.length)
            else c :: applyRuleFuel r n (some c) cs) = c :: cs
      rw [hm]
      simp only [Bool.false_eq_true, if_false]
      have hc : isWordChar c = true := hs c (List.mem_cons_self c cs)
      have hcs : ∀ x ∈ cs, isWordChar x = true := fun x hx => hs x (List.mem_cons_of_mem c hx)
      rw [ih c cs hcs hc]

theorem applyRule_of_all_word (r : Rule) (s : List Char) (hw : r.wordBound = true)
    (hs : ∀ c ∈ s, isWordChar c = true) (hne : s ≠ r.pattern) :
    applyRule r s = s := by
  unfold applyRule
  cases s with
  | nil => rfl
  | cons c cs =>
    have hm : matchesAt r none (c :: cs) = false := by
      by_cases hpre : r.pattern.isPrefixOf (c :: cs)
      · have hpre2 : r.pattern <+: (c :: cs) := List.isPrefixOf_iff_prefix.mp hpre
        obtain ⟨t, ht⟩ := hpre2
        cases t with
        | nil =>
          rw [List.append_nil] at ht
          exact absurd ht.symm hne
        | cons d ds =>
          have hdrop : (c :: cs).drop r.pattern.length = d :: ds := by
            rw [← ht, List.drop_left]
          have hd : isWordChar d = true := by
            apply hs
            rw [← ht]
            exact List.mem_append_right _ (List.mem_cons_self d ds)
          simp [matchesAt, hw, hdrop, boundaryAfter, hd]
      · simp [matchesAt, hpre]
    show (if matchesAt r none (c :: cs) = true then
            r.replacement ++ applyRuleFuel r cs.length r.pattern.getLast? ((c :: cs).drop r.pattern.length)
          else c :: applyRuleFuel r cs.length (some c) cs) = c :: cs
    rw [hm]
    simp only [Bool.false_eq_true, if_false]
    have hc : isWordChar c = true := hs c (List.mem_cons_self c cs)
    have hcs : ∀ x ∈ cs, isWordChar x = true := fun x hx => hs x (List.mem_cons_of_mem c hx)
    rw [applyRuleFuel_of_word_prev r hw cs.length c cs hcs hc]


/-- C1: `rewrite` applies the rules as a left fold over the evolving string
(each rule acts on the already rewritten text, not the original); in the
source's chained rule table the earlier "ale"→"all-ay" rule consumes the
"ale" inside "pale", so "pale" rewrites to "pall-ay" and the later
"pale"→"pah-lay" rule no longer fires. -/
theorem rewrite_is_sequential_fold_with_chaining :
    (∀ (rules : List Rule) (s : List Char),
        rewrite rules s = rules.foldl (fun acc r => applyRule r acc) (toLowerStr s)) ∧
    rewrite chainRules "pale".data = "pall-ay".data ∧
    applyRule ⟨"pale".data, "pah-lay".data, false⟩ "pall-ay".data = "pall-ay".data :=
  ⟨fun rules s => runRules_eq_foldl rules (toLowerStr s), by decide, by decide⟩

/-- C2 counterexample: the `speak` of src/unnamed/part_002 lines 134-142 has
no `.toLowerCase()` call, so rewriting is not case-insensitive there:
"M'ap manje" rewrites to "M'ap man-jay", which differs from the rewrite of
"m'ap manje". -/
theorem rewrite_no_lowercase_counterexample :
    rewriteNoLower part002Rules ('M' :: apos :: "ap manje".data) =
      'M' :: apos :: "ap man-jay".data ∧
    rewriteNoLower part002Rules ('M' :: apos :: "ap manje".data) ≠
      rewriteNoLower part002Rules ('m' :: apos :: "ap manje".data) :=
  ⟨by decide, by decide⟩

/-- C2 amended: `rewrite` — the engine of the chains that call
`.toLowerCase()`, such as src/KreyolApp/App.js lines 31-40 — lowercases its
input before applying the rules and is case-insensitive: rewriting a string
and rewriting its lowercasing agree, two inputs with the same lowercasing
rewrite identically, and "M'ap manje" rewrites exactly as "m'ap manje" under
the App.js rule table; but the `speak` of src/unnamed/part_002 lines 134-142
applies its rules without lowercasing, and there the two inputs differing
only in case produce different output. -/
theorem rewrite_case_insensitive :
    (∀ (rules : List Rule) (s : List Char),
        rewrite rules s = rewrite rules (toLowerStr s)) ∧
    (∀ (rules : List Rule) (s t : List Char),
        toLowerStr s = toLowerStr t → rewrite rules s = rewrite rules t) ∧
    rewrite appRules ('M' :: apos :: "ap manje".data) =
      rewrite appRules ('m' :: apos :: "ap manje".data) ∧
    rewriteNoLower part002Rules ('M' :: apos :: "ap manje".data) ≠
      rewriteNoLower part002Rules ('m' :: apos :: "ap manje".data) := by
  refine ⟨?_, ?_, by decide, by decide⟩
  · intro rules s
    unfold rewrite
    rw [toLowerStr_idem]
  · intro rules s t h
    unfold rewrite
    rw [h]

/-- Witness for C2 at the concrete capitalized and lowercased inputs. -/
theorem rewrite_case_insensitive_witness :
    rewrite appRules ('M' :: apos :: "ap manje".data) =
      rewrite appRules ('m' :: apos :: "ap manje".data) :=
  rewrite_case_insensitive.2.1 appRules ('M' :: apos :: "ap manje".data)
    ('m' :: apos :: "ap manje".data) (by decide)

/-- C3 counterexample: on a matching tag whose value itself contains ':',
`lookupTag` returns only the segment between the first and second colon (JS
`split(':')[1]`), not the entire text after the first colon as claimed:
"DEF:a:b" yields "a", not "a:b". -/
theorem lookupTag_colon_value_counterexample :
    lookupTag ⟨[], [], ["DEF:a:b".data]⟩ "DEF".data = some "a".data ∧
    lookupTag ⟨[], [], ["DEF:a:b".data]⟩ "DEF".data ≠ some "a:b".data :=
  ⟨by decide, by decide⟩

/-- C3 amended: `lookupTag` scans the tags in order; it returns none iff no
tag begins with the kind followed by ':'; for a colon-free kind, the value
returned from the first matching tag is the text between the first ':' and
the next ':' (or the end of the tag) — so "DEF:a:b" yields "a" and the
empty-valued "DEF:" yields some "" rather than none. -/
theorem lookupTag_spec_amended :
    (∀ (t : Token) (kind : List Char),
        lookupTag t kind = none ↔ ∀ tag ∈ t.tags, ¬ (kind ++ [':']).isPrefixOf tag) ∧
    (∀ (t : Token) (kind tag : List Char), (':' : Char) ∉ kind →
        t.tags.find? (fun tg => (kind ++ [':']).isPrefixOf tg) = some tag →
        ∃ rest, tag = kind ++ ':' :: rest ∧
          lookupTag t kind = some (rest.takeWhile (fun c => c ≠ ':'))) ∧
    lookupTag ⟨[], [], ["DEF:a:b".data]⟩ "DEF".data = some "a".data ∧
    lookupTag ⟨[], [], ["DEF:".data]⟩ "DEF".data = some [] := by
  refine ⟨lookupTag_eq_none_iff, ?_, by decide, by decide⟩
  intro t kind tag hk hf
  exact lookupTag_value t kind tag hk hf

/-- Witness for C3 amended: a token without a DEF tag looks up to none. -/
theorem lookupTag_spec_amended_witness :
    lookupTag ⟨"ap".data, "ap".data, ["POS:AUX".data]⟩ "DEF".data = none :=
  (lookupTag_spec_amended.1 ⟨"ap".data, "ap".data, ["POS:AUX".data]⟩ "DEF".data).mpr
    (by decide)

/-- C4: at a stored value that fails to deserialize, the part_002
`loadFavorites` (no try/catch) propagates the failure to its caller instead
of returning the empty list; the part_001 variant with try/catch returns []
as the claim states. -/
theorem loadFavorites_corrupt_discrepancy :
    loadFavoritesUnguarded (fun _ => none) (some "oops") = Except.error () ∧
    loadFavorites (fun _ => none) (some "oops") = [] :=
  ⟨rfl, rfl⟩

/-- C5: `saveToFavorites` is a no-op when the candidate is empty or already
present; otherwise it prepends the candidate and persists the full new list;
adding twice from a list not containing the item leaves exactly one
occurrence, at the front. -/
theorem saveToFavorites_spec :
    (∀ (st : FavState) (x : String), x = "" ∨ x ∈ st.favorites →
        saveToFavorites x st = st) ∧
    (∀ (st : FavState) (x : String), x ≠ "" → x ∉ st.favorites →
        saveToFavorites x st = ⟨x :: st.favorites, x :: st.favorites⟩) ∧
    (∀ (st : FavState) (x : String), x ≠ "" → x ∉ st.favorites →
        (saveToFavorites x (saveToFavorites x st)).favorites.count x = 1 ∧
        (saveToFavorites x (saveToFavorites x st)).favorites.head? = some x) := by
  have hnoop : ∀ (st : FavState) (x : String), x = "" ∨ x ∈ st.favorites →
      saveToFavorites x st = st := by
    intro st x h
    unfold saveToFavorites
    rw [if_pos h]
  have hadd : ∀ (st : FavState) (x : String), x ≠ "" → x ∉ st.favorites →
      saveToFavorites x st = ⟨x :: st.favorites, x :: st.favorites⟩ := by
    intro st x h1 h2
    unfold saveToFavorites
    rw [if_neg (not_or.mpr ⟨h1, h2⟩)]
  refine ⟨hnoop, hadd, ?_⟩
  intro st x h1 h2
  rw [hadd st x h1 h2,
      hnoop ⟨x :: st.favorites, x :: st.favorites⟩ x (Or.inr (List.mem_cons_self x _))]
  refine ⟨?_, rfl⟩
  show (x :: st.favorites).count x = 1
  rw [List.count_cons_self, List.count_eq_zero.mpr h2]

/-- Witness for C5 at the empty store and item "a". -/
theorem saveToFavorites_spec_witness :
    (saveToFavorites "a" (saveToFavorites "a" ⟨[], []⟩)).favorites.count "a" = 1 ∧
    (saveToFavorites "a" (saveToFavorites "a" ⟨[], []⟩)).favorites.head? = some "a" :=
  saveToFavorites_spec.2.2 ⟨[], []⟩ "a" (by decide) (by decide)

/-- C6 counterexample: when the item is already present, add is a no-op but
remove deletes the existing occurrence, so add;remove does not restore the
pre-add state. -/
theorem add_remove_counterexample :
    removeFavorite "a" (saveToFavorites "a" ⟨["a"], ["a"]⟩) ≠ ⟨["a"], ["a"]⟩ := by
  decide

/-- C6 amended: provided the item is not already present, add then remove
restores the favorites list exactly. -/
theorem add_remove_roundtrip_amended (st : FavState) (x : String)
    (h : x ∉ st.favorites) :
    (removeFavorite x (saveToFavorites x st)).favorites = st.favorites := by
  have hfilter : st.favorites.filter (fun f => f ≠ x) = st.favorites := by
    rw [List.filter_eq_self]
    intro a ha
    simp only [ne_eq, decide_eq_true_eq]
    exact fun heq => h (heq ▸ ha)
  by_cases hx : x = "" ∨ x ∈ st.favorites
  · unfold saveToFavorites removeFavorite
    rw [if_pos hx]
    exact hfilter
  · unfold saveToFavorites removeFavorite
    rw [if_neg hx]
    show (x :: st.favorites).filter (fun f => f ≠ x) = st.favorites
    rw [List.filter_cons_of_neg (by simp), hfilter]

/-- Witness for C6 amended at the empty store and item "a". -/
theorem add_remove_roundtrip_witness :
    (removeFavorite "a" (saveToFavorites "a" ⟨[], []⟩)).favorites = ([] : List String) :=
  add_remove_roundtrip_amended ⟨[], []⟩ "a" (by decide)

/-- C7: the word-bounded rule ("ap"→"app") on "m'ap manje" rewrites only the
standalone "ap" and leaves "manje" untouched; in general a word-bounded
pattern never matches strictly inside a longer word: on a string made of word
characters that is not the pattern itself, the rule changes nothing. -/
theorem word_bounded_rule_spec :
    applyRule apRule ('m' :: apos :: "ap manje".data) =
      'm' :: apos :: "app manje".data ∧
    (∀ (r : Rule) (s : List Char), r.wordBound = true →
        (∀ c ∈ s, isWordChar c = true) → s ≠ r.pattern → applyRule r s = s) :=
  ⟨by decide, fun r s hw hs hne => applyRule_of_all_word r s hw hs hne⟩

/-- Witness for C7: "manje" is all word characters, so the word-bounded "ap"
rule leaves it unchanged. -/
theorem word_bounded_rule_spec_witness :
    applyRule apRule "manje".data = "manje".data :=
  word_bounded_rule_spec.2 apRule "manje".data (by decide) (by decide) (by decide)

/-- C8 counterexample: the parameterized speak of src/KreyolApp/App.js lines
31-40 has no guard clause, so on the empty string it still invokes speech
synthesis (with the empty rewritten text) rather than being ignored. -/
theorem speak_empty_counterexample :
    speakApp "".data = some "".data ∧ speakApp "".data ≠ none :=
  ⟨by decide, by decide⟩

/-- C8 amended: analyzeText with empty input is silently ignored by its guard
(no request, no alert, state unchanged) and the state-based speak variant
with an empty result invokes no synthesis; but the parameterized speak in
App.js has no guard and invokes synthesis even on empty input. -/
theorem empty_input_guard_amended :
    (∀ (st : AppState) (resp : Except Unit AnalyzeResponse), st.inputText = "" →
        analyzeText st resp = ⟨st, false, false⟩) ∧
    speakGuarded "" = none ∧
    speakApp "".data = some "".data := by
  refine ⟨?_, rfl, by decide⟩
  intro st resp h
  unfold analyzeText
  rw [if_pos h]

/-- Witness for C8 amended: the guard fires on a concrete empty-input state. -/
theorem empty_input_guard_witness :
    analyzeText ⟨"", "", [], false⟩ (Except.error ()) =
      ⟨⟨"", "", [], false⟩, false, false⟩ :=
  empty_input_guard_amended.1 ⟨"", "", [], false⟩ (Except.error ()) rfl

/-- C9 counterexample: load performs no deduplication — a stored value that
deserializes to ["a", "a"] is returned verbatim, with a duplicate. -/
theorem load_duplicates_counterexample :
    ¬ (loadFavorites (fun _ => some ["a", "a"]) (some "x")).Nodup := by
  decide

/-- C9 amended: add and remove preserve duplicate-freeness of the favorites
list, and load yields a duplicate-free list when storage is absent or when
the stored value deserializes to a duplicate-free list; load itself does not
deduplicate. -/
theorem favorites_nodup_amended :
    (∀ (st : FavState) (x : String), st.favorites.Nodup →
        (saveToFavorites x st).favorites.Nodup) ∧
    (∀ (st : FavState) (x : String), st.favorites.Nodup →
        (removeFavorite x st).favorites.Nodup) ∧
    (∀ (parse : String → Option (List String)), (loadFavorites parse none).Nodup) ∧
    (∀ (parse : String → Option (List String)) (s : String) (l : List String),
        parse s = some l → l.Nodup → (loadFavorites parse (some s)).Nodup) := by
  refine ⟨?_, ?_, fun _ => List.nodup_nil, ?_⟩
  · intro st x h
    unfold saveToFavorites
    by_cases hx : x = "" ∨ x ∈ st.favorites
    · rw [if_pos hx]; exact h
    · rw [if_neg hx]
      show (x :: st.favorites).Nodup
      exact List.nodup_cons.mpr ⟨fun hm => hx (Or.inr hm), h⟩
  · intro st x h
    show (st.favorites.filter (fun f => f ≠ x)).Nodup
    exact h.filter _
  · intro parse s l hp hl
    unfold loadFavorites
    show (if s = "" then [] else
      match parse s with
      | some l => l
      | none => []).Nodup
    by_cases hs : s = ""
    · rw [if_pos hs]; exact List.nodup_nil
    · rw [if_neg hs, hp]
      exact hl

/-- Witness for C9 amended: loading a duplicate-free stored list is
duplicate-free. -/
theorem favorites_nodup_witness :
    (loadFavorites (fun _ => some ["a"]) (some "x")).Nodup :=
  favorites_nodup_amended.2.2.2 (fun _ => some ["a"]) "x" ["a"] rfl (by decide)

/-- C10: when the analyze request fails, the previously held result and token
list are unchanged, the user is alerted, and only the loading flag is reset. -/
theorem analyze_error_preserves_state (st : AppState) (e : Unit)
    (h : st.inputText ≠ "") :
    analyzeText st (Except.error e) =
      ⟨⟨st.inputText, st.result, st.tokens, false⟩, true, true⟩ := by
  unfold analyzeText
  rw [if_neg h]

/-- Witness for C10 on a concrete loading state. -/
theorem analyze_error_witness :
    analyzeText ⟨"bonjou", "res", [], true⟩ (Except.error ()) =
      ⟨⟨"bonjou", "res", [], false⟩, true, true⟩ :=
  analyze_error_preserves_state ⟨"bonjou", "res", [], true⟩ () (by decide)

end KreyolLingua
